import Mathlib

/-!
A shallow embedding of `gazelle/parse.go` (package `js`): the compiled import
pattern `jsImportPattern`, the helper `unquoteImportString` (including the part
of Go's `strconv.Unquote` it relies on), and the driver `ParseJS`.

Strings are modelled as `List Char`; Go operates on bytes, and every input in
this development is ASCII, where the two models agree byte for byte.

The Go pattern is an RE2-syntax regular expression executed with Go's
leftmost-first ("what a backtracking search would find first") semantics.  We
embed it as a syntax tree (`RE`) that mirrors the pattern string node for node,
and an interpreter `mrun` that returns the full list of possible
(end-position, captures) outcomes in backtracking priority order; the engine's
answer is the head of that list.  Repetition is interpreted by a depth-first
search (`starGo`) that skips states it has already expanded: a repeated state
would only contribute outcomes identical to ones emitted earlier in the
priority order, so pruning it changes no first result.  All recursion is
structural on an explicit fuel so that every definition evaluates inside the
kernel.
-/

/-! ### Byte-wise string order (Go `sort.Strings`) -/

/-- Byte-wise (ordinal) comparison, as Go's `<=` on strings.  On ASCII data,
comparing code points equals comparing UTF-8 bytes. -/
def bytesLe : List Char → List Char → Bool
  | [], _ => true
  | _ :: _, [] => false
  | a :: as, b :: bs =>
    if a.toNat < b.toNat then true
    else if b.toNat < a.toNat then false
    else bytesLe as bs

def strLe (s t : String) : Bool := bytesLe s.data t.data

theorem bytesLe_total (a b : List Char) : bytesLe a b = true ∨ bytesLe b a = true := by
  induction a generalizing b with
  | nil => left; rfl
  | cons x xs ih =>
    cases b with
    | nil => right; rfl
    | cons y ys =>
      rcases Nat.lt_trichotomy x.toNat y.toNat with h | h | h
      · left; simp [bytesLe, h]
      · have hyx : ¬ y.toNat < x.toNat := by omega
        have hxy : ¬ x.toNat < y.toNat := by omega
        rcases ih ys with h' | h'
        · left; simp [bytesLe, hxy, hyx, h']
        · right; simp [bytesLe, hxy, hyx, h']
      · right; simp [bytesLe, h]

theorem bytesLe_trans {a b c : List Char} (hab : bytesLe a b = true)
    (hbc : bytesLe b c = true) : bytesLe a c = true := by
  induction a generalizing b c with
  | nil => rfl
  | cons x xs ih =>
    cases b with
    | nil => simp [bytesLe] at hab
    | cons y ys =>
      cases c with
      | nil => simp [bytesLe] at hbc
      | cons z zs =>
        by_cases hxy : x.toNat < y.toNat <;> by_cases hyz : y.toNat < z.toNat
        · have : x.toNat < z.toNat := by omega
          simp [bytesLe, this]
        · simp only [bytesLe, hyz, if_neg, if_false] at hbc
          by_cases hzy : z.toNat < y.toNat
          · simp [hzy] at hbc
          · have : x.toNat < z.toNat := by omega
            simp [bytesLe, this]
        · simp only [bytesLe, hxy, if_neg, if_false] at hab
          by_cases hyx : y.toNat < x.toNat
          · simp [hyx] at hab
          · have : x.toNat < z.toNat := by omega
            simp [bytesLe, this]
        · simp only [bytesLe, hxy, if_neg, if_false] at hab
          simp only [bytesLe, hyz, if_neg, if_false] at hbc
          by_cases hyx : y.toNat < x.toNat
          · simp [hyx] at hab
          · by_cases hzy : z.toNat < y.toNat
            · simp [hzy] at hbc
            · have hxz : ¬ x.toNat < z.toNat := by omega
              have hzx : ¬ z.toNat < x.toNat := by omega
              simp only [bytesLe, hxz, hzx, if_neg, if_false]
              exact ih (by simpa [hyx] using hab) (by simpa [hzy] using hbc)

instance : IsTotal String (fun a b => strLe a b = true) :=
  ⟨fun a b => bytesLe_total a.data b.data⟩

instance : IsTrans String (fun a b => strLe a b = true) :=
  ⟨fun _ _ _ hab hbc => bytesLe_trans hab hbc⟩

/-! ### The regex engine -/

/-- Capture slots: index `g` holds the span (start, end) last recorded by
capture group `g`.  Slot 0 (the whole match) is unused by `ParseJS`. -/
abbrev Caps := List (Option (Nat × Nat))

/-- Regex syntax, mirroring the RE2 constructs used by `compileJsImportPattern`:
`^` in `(?m)` mode, single-character predicates (literals, `.`, `\s`),
concatenation, ordered alternation, greedy/lazy `*`, and capture groups. -/
inductive RE where
  | eps : RE
  | bol : RE
  | pred : (Char → Bool) → RE
  | cat : RE → RE → RE
  | alt : RE → RE → RE
  | star : Bool → RE → RE
  | grp : Nat → RE → RE

/-- DFS over the states reachable by iterating a repetition body, emitting
(end-position, captures) outcomes in backtracking priority order (greedy:
iterate first, stop last; lazy: stop first).  A state already in `visited` is
skipped: its outcomes already appeared earlier in the priority order.
Iterations must consume input (every repetition body in `jsImportPattern`
matches at least one character, which is also how Go avoids repeating an empty
match). -/
def starGo (next : Nat → Caps → List (Nat × Caps)) (lazy : Bool) :
    Nat → List (Nat × Caps) → List (Nat × Caps) → List (Nat × Caps) × List (Nat × Caps)
  | 0, _, visited => ([], visited)
  | _ + 1, [], visited => ([], visited)
  | fuel + 1, st :: pending, visited =>
    if st ∈ visited then starGo next lazy fuel pending visited
    else
      let children := (next st.1 st.2).filter fun c => st.1 < c.1
      let r1 := starGo next lazy fuel children (st :: visited)
      let here := if lazy then st :: r1.1 else r1.1 ++ [st]
      let r2 := starGo next lazy fuel pending r1.2
      (here ++ r2.1, r2.2)

/-- All (end-position, captures) outcomes of matching `re` at position `i` of
`s`, in backtracking priority order. -/
def mrun (s : List Char) : Nat → RE → Nat → Caps → List (Nat × Caps)
  | 0, _, _, _ => []
  | fuel + 1, re, i, caps =>
    match re with
    | .eps => [(i, caps)]
    | .bol =>
      if i = 0 then [(i, caps)]
      else if s[i - 1]? = some '\n' then [(i, caps)] else []
    | .pred p =>
      match s[i]? with
      | some c => if p c then [(i + 1, caps)] else []
      | none => []
    | .cat a b => (mrun s fuel a i caps).flatMap fun jc => mrun s fuel b jc.1 jc.2
    | .alt a b => mrun s fuel a i caps ++ mrun s fuel b i caps
    | .grp g a => (mrun s fuel a i caps).map fun jc => (jc.1, jc.2.set g (some (i, jc.1)))
    | .star lz a => (starGo (fun p c => mrun s fuel a p c) lz fuel [(i, caps)] []).1

/-! ### The pattern of `compileJsImportPattern`, node for node -/

/-- A single literal character. -/
def chrRE (c : Char) : RE := .pred fun x => x = c

/-- `.` — any character except newline (RE2 default). -/
def dotRE : RE := .pred fun c => c ≠ '\n'

/-- `(?:.|\n)` — any character at all. -/
def anyRE : RE := .alt dotRE (chrRE '\n')

/-- `\s` — RE2's Perl space class `[\t\n\f\r ]`. -/
def spaceRE : RE := .pred fun c => c = ' ' || c = '\t' || c = '\n' || c = '\x0c' || c = '\r'

/-- A sequence of literal characters. -/
def litRE : List Char → RE
  | [] => .eps
  | c :: cs => .cat (chrRE c) (litRE cs)

def strRE (t : String) : RE := litRE t.data

/-- `e?` (greedy) or `e??` (lazy). -/
def optRE (lazy : Bool) (a : RE) : RE := if lazy then .alt .eps a else .alt a .eps

/-- `e+` (greedy) or `e+?` (lazy), as one copy followed by a star. -/
def plusRE (lazy : Bool) (a : RE) : RE := .cat a (.star lazy a)

/-- `charactersPattern := ".+"` -/
def charactersPattern : RE := plusRE false dotRE

/-- `'(?:.+|")*'` — the single-quote-delimited branch of the literal pattern. -/
def sqLit : RE :=
  .cat (chrRE '\'') (.cat (.star false (.alt charactersPattern (chrRE '"'))) (chrRE '\''))

/-- `"(?:.+|')*"` — the double-quote-delimited branch. -/
def dqLit : RE :=
  .cat (chrRE '"') (.cat (.star false (.alt charactersPattern (chrRE '\''))) (chrRE '"'))

/-- `stringLiteralPattern := `'(?:` + charactersPattern + `|")*'|"(?:` + charactersPattern + `|')*"` -/
def stringLiteralPattern : RE := .alt sqLit dqLit

/-- The body of the starred `jestMock` capture group, `SL,*`.  Alternation has
the lowest precedence, so the `,*` written after `stringLiteralPattern`
attaches to its second (double-quoted) branch only:
`'(?:.+|")*'` ∣ `"(?:.+|')*",*`. -/
def jestMockLit : RE := .alt sqLit (.cat dqLit (.star false (chrRE ',')))

/-- `(?:const .+ = )` -/
def constPrefixRE : RE := .cat (strRE "const ") (.cat charactersPattern (strRE " = "))

def IMPORT : Nat := 1
def REQUIRE : Nat := 2
def EXPORT : Nat := 3
def JEST_MOCK : Nat := 4
def JEST_REQUIRE_ACTUAL : Nat := 5
def REQUIRE_RESOLVE : Nat := 6
def JEST_CREATE_MOCK_FROM_MODULE : Nat := 7

/-- `(?m)^import\s(?:(?:.|\n)+?from )??(?P<import>SL).*?` -/
def importPattern : RE :=
  .cat .bol (.cat (strRE "import") (.cat spaceRE
    (.cat (optRE true (.cat (plusRE true anyRE) (strRE "from ")))
      (.cat (.grp IMPORT stringLiteralPattern) (.star true dotRE)))))

/-- `(?m)^\s*?(?:const .+ = )?require\((?P<require>SL)\).*` -/
def requirePattern : RE :=
  .cat .bol (.cat (.star true spaceRE) (.cat (optRE false constPrefixRE)
    (.cat (strRE "require(")
      (.cat (.grp REQUIRE stringLiteralPattern) (.cat (chrRE ')') (.star false dotRE))))))

/-- `(?m)^export\s(?:(?:.|\n)+?from )??(?P<export>SL).*?` -/
def exportPattern : RE :=
  .cat .bol (.cat (strRE "export") (.cat spaceRE
    (.cat (optRE true (.cat (plusRE true anyRE) (strRE "from ")))
      (.cat (.grp EXPORT stringLiteralPattern) (.star true dotRE)))))

/-- `(?m)^\s*?(?:const .+ = )?jest.mock\((?P<jestMock>SL,*)*`
(the `.` of `jest.mock` is an unescaped dot, i.e. any character). -/
def jestMockPattern : RE :=
  .cat .bol (.cat (.star true spaceRE) (.cat (optRE false constPrefixRE)
    (.cat (strRE "jest") (.cat dotRE (.cat (strRE "mock(")
      (.star false (.grp JEST_MOCK jestMockLit)))))))

/-- `(?m)^\s*?(?:return )?jest.requireActual\((?P<jestRequireActual>SL).*?` -/
def jestRequireActualPattern : RE :=
  .cat .bol (.cat (.star true spaceRE) (.cat (optRE false (strRE "return "))
    (.cat (strRE "jest") (.cat dotRE (.cat (strRE "requireActual(")
      (.cat (.grp JEST_REQUIRE_ACTUAL stringLiteralPattern) (.star true dotRE)))))))

/-- `(?m)^\s*?(?:const .+ = )?require.resolve\((?P<requireResolve>SL)\).*` -/
def requireResolvePattern : RE :=
  .cat .bol (.cat (.star true spaceRE) (.cat (optRE false constPrefixRE)
    (.cat (strRE "require") (.cat dotRE (.cat (strRE "resolve(")
      (.cat (.grp REQUIRE_RESOLVE stringLiteralPattern)
        (.cat (chrRE ')') (.star false dotRE))))))))

/-- `(?m)^\s*?(?:const .+ = )?jest.createMockFromModule\((?P<createMockFromModule>SL)\).*` -/
def jestCreateMockFromModulePattern : RE :=
  .cat .bol (.cat (.star true spaceRE) (.cat (optRE false constPrefixRE)
    (.cat (strRE "jest") (.cat dotRE (.cat (strRE "createMockFromModule(")
      (.cat (.grp JEST_CREATE_MOCK_FROM_MODULE stringLiteralPattern)
        (.cat (chrRE ')') (.star false dotRE))))))))

/-- The seven alternatives joined by `|`, in source order. -/
def jsImportPattern : RE :=
  .alt importPattern (.alt requirePattern (.alt exportPattern (.alt jestMockPattern
    (.alt jestRequireActualPattern (.alt requireResolvePattern
      jestCreateMockFromModulePattern)))))

/-! ### `FindAllSubmatch` -/

def capsInit : Caps := List.replicate 8 none

/-- Ample fuel: the interpreter's recursion depth is bounded by the pattern's
syntactic depth, and each repetition's search visits each distinct
(position, captures) state once, so a generous polynomial bound suffices.
Fuel is peeled lazily, so its magnitude costs nothing. -/
def mfuel (s : List Char) : Nat := 100 * (s.length + 10) * (s.length + 10)

/-- The leftmost-first match starting at position `i` or later:
the earliest start position that admits a match, with the backtracking-first
outcome there. -/
def findFrom (s : List Char) : Nat → Nat → Option (Nat × Nat × Caps)
  | 0, _ => none
  | fuel + 1, i =>
    match mrun s (mfuel s) jsImportPattern i capsInit with
    | (j, caps) :: _ => some (i, j, caps)
    | [] => if i < s.length then findFrom s fuel (i + 1) else none

/-- Successive non-overlapping leftmost-first matches, as Go's `FindAll` loop:
resume at the end of the previous match (one past it, were the match empty). -/
def findAllGo (s : List Char) : Nat → Nat → List Caps
  | 0, _ => []
  | fuel + 1, pos =>
    match findFrom s (s.length + 2) pos with
    | none => []
    | some (st, en, caps) =>
      caps :: (if st < en then findAllGo s fuel en else findAllGo s fuel (en + 1))

def capStr (s : List Char) (sp : Nat × Nat) : List Char := (s.drop sp.1).take (sp.2 - sp.1)

/-- `jsImportPattern.FindAllSubmatch(data, -1)`, keeping the seven capture
groups of each match: entry `g` is the text last captured by group `g`, or
`none` if the group took part in no match. -/
def jsFindAllSubmatch (s : List Char) : List (List (Option (List Char))) :=
  (findAllGo s (s.length + 2) 0).map fun caps => caps.map fun o => o.map (capStr s)

/-! ### `unquoteImportString` -/

/-- `bytes.Split(l, []byte{'"'})`. -/
def splitOnDQ : List Char → List (List Char)
  | [] => [[]]
  | c :: rest =>
    if c = '"' then [] :: splitOnDQ rest
    else
      match splitOnDQ rest with
      | p :: ps => (c :: p) :: ps
      | [] => [[c]]

/-- The re-escaping loop: every piece but the last gets a trailing backslash
appended when it is empty or does not already end in one. -/
def reEscapePieces : List (List Char) → List (List Char)
  | [] => []
  | [p] => [p]
  | p :: ps =>
    (if p.isEmpty || p.getLast? ≠ some '\\' then p ++ ['\\'] else p) :: reEscapePieces ps

/-- `bytes.Join(pieces, []byte{'"'})`. -/
def joinDQ : List (List Char) → List Char
  | [] => []
  | [p] => p
  | p :: ps => p ++ '"' :: joinDQ ps

/-- The in-place delimiter rewrite `quoted[0] = '"'; quoted[len(quoted)-1] = '"'`. -/
def rewriteDelims (l : List Char) : List Char := (l.set 0 '"').set (l.length - 1) '"'

/-- The buffer `unquoteImportString` hands to `strconv.Unquote`: split the body
`quoted[1:len(quoted)-1]` on `"`; if that gives more than one piece, re-escape
and rebuild as a `"`-delimited literal; finally, if the (possibly rebuilt)
buffer still starts with `'`, rewrite its first and last byte to `"`.
(The Go code indexes `quoted[1:len(quoted)-1]` unchecked; captures are always
at least two bytes long — see `parse_capture_shape` — and this embedding is
total by using `drop`/`dropLast`.) -/
def normalizeQuoted (quoted : List Char) : List Char :=
  let noQuotes := splitOnDQ (quoted.drop 1).dropLast
  let q1 := if noQuotes.length ≠ 1 then '"' :: (joinDQ (reEscapePieces noQuotes) ++ ['"']) else quoted
  if q1.head? = some '\'' then rewriteDelims q1 else q1

/-- One step of Go's `strconv.UnquoteChar` for a `quote`-delimited literal
(rune model: a character ≥ U+0080 stands for an already-decoded rune).
Returns the decoded character and the remaining input, or `none` for
`ErrSyntax`. -/
def unquoteCharStep (quote : Char) : List Char → Option (Char × List Char)
  | [] => none
  | c :: rest =>
    if c = quote then none
    else if c ≠ '\\' then some (c, rest)
    else
      match rest with
      | [] => none
      | e :: r2 =>
        if e = 'a' then some ('\x07', r2)
        else if e = 'b' then some ('\x08', r2)
        else if e = 'f' then some ('\x0c', r2)
        else if e = 'n' then some ('\n', r2)
        else if e = 'r' then some ('\r', r2)
        else if e = 't' then some ('\t', r2)
        else if e = 'v' then some ('\x0b', r2)
        else if e = '\\' then some ('\\', r2)
        else if e = '\'' then (if quote = '\'' then some ('\'', r2) else none)
        else if e = '"' then (if quote = '"' then some ('"', r2) else none)
        else if e = 'x' then
          match r2 with
          | h1 :: h2 :: r3 =>
            if isHex h1 && isHex h2 then
              some (Char.ofNat (hexVal h1 * 16 + hexVal h2), r3)
            else none
          | _ => none
        else if e = 'u' then
          match r2 with
          | h1 :: h2 :: h3 :: h4 :: r3 =>
            if isHex h1 && isHex h2 && isHex h3 && isHex h4 then
              let v := ((hexVal h1 * 16 + hexVal h2) * 16 + hexVal h3) * 16 + hexVal h4
              if validRune v then some (Char.ofNat v, r3) else none
            else none
          | _ => none
        else if e = 'U' then
          match r2 with
          | h1 :: h2 :: h3 :: h4 :: h5 :: h6 :: h7 :: h8 :: r3 =>
            if isHex h1 && isHex h2 && isHex h3 && isHex h4 &&
                isHex h5 && isHex h6 && isHex h7 && isHex h8 then
              let v := ((((((hexVal h1 * 16 + hexVal h2) * 16 + hexVal h3) * 16 +
                hexVal h4) * 16 + hexVal h5) * 16 + hexVal h6) * 16 + hexVal h7) * 16 +
                hexVal h8
              if validRune v then some (Char.ofNat v, r3) else none
            else none
          | _ => none
        else if '0' ≤ e && e ≤ '7' then
          match r2 with
          | d2 :: d3 :: r3 =>
            if ('0' ≤ d2 && d2 ≤ '7') && ('0' ≤ d3 && d3 ≤ '7') then
              let v := (e.toNat - 48) * 64 + (d2.toNat - 48) * 8 + (d3.toNat - 48)
              if v ≤ 255 then some (Char.ofNat v, r3) else none
            else none
          | _ => none
        else none
where
  isHex (c : Char) : Bool :=
    c.isDigit || ('a' ≤ c && c ≤ 'f') || ('A' ≤ c && c ≤ 'F')
  hexVal (c : Char) : Nat :=
    if c.isDigit then c.toNat - 48
    else if 'a' ≤ c && c ≤ 'f' then c.toNat - 87
    else c.toNat - 55
  validRune (v : Nat) : Bool :=
    v < 0xD800 || (0xDFFF < v && v ≤ 0x10FFFF)

/-- The decode loop of `strconv.Unquote` on the contents after the opening
quote: decode until the closing quote, which must end the string; reject an
unescaped newline; a `'`-quoted literal must hold exactly one character. -/
def unquoteLoop (quote : Char) : Nat → List Char → List Char → Option (List Char)
  | 0, _, _ => none
  | fuel + 1, acc, l =>
    match l with
    | [] => none
    | c :: rest =>
      if c = quote then
        if rest.isEmpty then
          if quote = '\'' && acc.length ≠ 1 then none else some acc.reverse
        else none
      else if c = '\n' then none
      else
        match unquoteCharStep quote (c :: rest) with
        | none => none
        | some (v, rest') => unquoteLoop quote fuel (v :: acc) rest'

/-- Go's `strconv.Unquote`, for `"`- and `'`-delimited literals.  (The
raw-string backquote arm is unreachable from `ParseJS`: by the time `Unquote`
is called the first byte is always `"`, see `normalizeQuoted`.) -/
def goUnquote (l : List Char) : Option (List Char) :=
  match l with
  | [] => none
  | q :: rest =>
    if rest.isEmpty then none
    else if q = '"' || q = '\'' then unquoteLoop q (rest.length + 1) [] rest
    else none

/-- `unquoteImportString`: normalize the quoting, then `strconv.Unquote`; on
failure, the error text carries the normalized buffer and `ErrSyntax`'s
message. -/
def unquoteImportString (quoted : List Char) : Except String (List Char) :=
  match goUnquote (normalizeQuoted quoted) with
  | some r => .ok r
  | none =>
    .error ("unquoting string literal " ++ String.mk (normalizeQuoted quoted) ++
      " from js: invalid syntax")

/-- What the caller's capture slice holds after `unquoteImportString` returns:
the delimiter rewrite mutates the caller's bytes in place exactly when no
rebuild happened (a single split piece) and the first byte was `'`; a rebuild
works on a fresh buffer and leaves the capture untouched. -/
def capAfterCall (quoted : List Char) : List Char :=
  if (splitOnDQ (quoted.drop 1).dropLast).length ≠ 1 then quoted
  else if quoted.head? = some '\'' then rewriteDelims quoted else quoted

/-! ### `ParseJS` -/

/-- `strings.ToLower`, on the ASCII range (all inputs here are ASCII). -/
def toLowerModel (l : List Char) : List Char :=
  l.map fun c => if 65 ≤ c.toNat && c.toNat ≤ 90 then Char.ofNat (c.toNat + 32) else c

/-- The error wrapper at each arm of `ParseJS`'s switch:
`fmt.Errorf("unquoting string literal %s from js, %v", match[g], err)` —
note `match[g]` aliases the input and may have had its delimiters rewritten
in place by the failed `unquoteImportString` call. -/
def jsErr (raw : List Char) (inner : String) : String :=
  "unquoting string literal " ++ String.mk raw ++ " from js, " ++ inner

/-- One arm of the switch: unquote group `g`'s capture, lower-casing the result
iff `lower`. -/
def armOf (lower : Bool) (c : List Char) : Except String (Option String) :=
  match unquoteImportString c with
  | .error e => .error (jsErr (capAfterCall c) e)
  | .ok u => .ok (some (String.mk (if lower then toLowerModel u else u)))

/-- The switch of `ParseJS`, over one match's capture groups, in source order:
`IMPORT` keeps case, every other group is lower-cased, no group at all
contributes nothing. -/
def stepMatch (m : List (Option (List Char))) : Except String (Option String) :=
  match m.getD IMPORT none with
  | some c => armOf false c
  | none =>
  match m.getD REQUIRE none with
  | some c => armOf true c
  | none =>
  match m.getD EXPORT none with
  | some c => armOf true c
  | none =>
  match m.getD JEST_MOCK none with
  | some c => armOf true c
  | none =>
  match m.getD JEST_REQUIRE_ACTUAL none with
  | some c => armOf true c
  | none =>
  match m.getD REQUIRE_RESOLVE none with
  | some c => armOf true c
  | none =>
  match m.getD JEST_CREATE_MOCK_FROM_MODULE none with
  | some c => armOf true c
  | none => .ok none

/-- The loop of `ParseJS`: process matches in scan order, appending each
contribution; the first unquoting failure aborts the whole call. -/
def collectImports : List (List (Option (List Char))) → Except String (List String)
  | [] => .ok []
  | m :: rest =>
    match stepMatch m with
    | .error e => .error e
    | .ok none => collectImports rest
    | .ok (some v) => (collectImports rest).map fun l => v :: l

/-- `ParseJS`: all matches of `jsImportPattern`, each capture unquoted (and
lower-cased except for `IMPORT`), the result sorted byte-wise ascending. -/
def ParseJS (data : String) : Except String (List String) :=
  (collectImports (jsFindAllSubmatch data.data)).map fun l =>
    List.insertionSort (fun a b => strLe a b = true) l

/-! ### Basic facts about the engine -/

instance {ε α : Type} [DecidableEq ε] [DecidableEq α] : DecidableEq (Except ε α) := fun a b =>
  match a, b with
  | .ok x, .ok y => if h : x = y then isTrue (by rw [h]) else isFalse (by simp [h])
  | .error x, .error y => if h : x = y then isTrue (by rw [h]) else isFalse (by simp [h])
  | .ok _, .error _ => isFalse (by simp)
  | .error _, .ok _ => isFalse (by simp)

theorem mrun_zero {s re i caps} : mrun s 0 re i caps = [] := rfl

theorem mem_mrun_eps {s f i caps jc} (h : jc ∈ mrun s (f + 1) .eps i caps) :
    jc = (i, caps) := by
  simpa [mrun] using h

theorem mem_mrun_bol {s f i caps jc} (h : jc ∈ mrun s (f + 1) .bol i caps) :
    jc = (i, caps) := by
  by_cases h0 : i = 0
  · simpa [mrun, h0] using h
  · by_cases hn : s[i - 1]? = some '\n'
    · simp [mrun, h0, hn] at h
      simp [h]
    · simp [mrun, h0, hn] at h

theorem mem_mrun_pred {s f p i caps jc} (h : jc ∈ mrun s (f + 1) (.pred p) i caps) :
    ∃ c, s[i]? = some c ∧ p c = true ∧ jc = (i + 1, caps) := by
  cases hg : s[i]? with
  | none => simp [mrun, hg] at h
  | some c =>
    by_cases hp : p c = true
    · refine ⟨c, rfl, hp, ?_⟩; simpa [mrun, hg, hp] using h
    · simp [mrun, hg, hp] at h

theorem mem_mrun_cat {s f a b i caps jc} (h : jc ∈ mrun s (f + 1) (.cat a b) i caps) :
    ∃ kc, kc ∈ mrun s f a i caps ∧ jc ∈ mrun s f b kc.1 kc.2 := by
  simpa [mrun, List.mem_flatMap] using h

theorem mem_mrun_alt {s f a b i caps jc} (h : jc ∈ mrun s (f + 1) (.alt a b) i caps) :
    jc ∈ mrun s f a i caps ∨ jc ∈ mrun s f b i caps := by
  simpa [mrun, List.mem_append] using h

theorem mem_mrun_grp {s f g a i caps jc} (h : jc ∈ mrun s (f + 1) (.grp g a) i caps) :
    ∃ kc, kc ∈ mrun s f a i caps ∧ jc = (kc.1, kc.2.set g (some (i, kc.1))) := by
  simp only [mrun, List.mem_map] at h
  obtain ⟨kc, hk, hj⟩ := h
  exact ⟨kc, hk, hj.symm⟩

theorem mem_mrun_star {s f lz a i caps jc} (h : jc ∈ mrun s (f + 1) (.star lz a) i caps) :
    jc ∈ (starGo (fun p c => mrun s f a p c) lz f [(i, caps)] []).1 := by
  simpa [mrun] using h

/-- Any property of (position, captures) states closed under the iteration body
holds of every outcome of `starGo`. -/
theorem starGo_inv {next : Nat → Caps → List (Nat × Caps)} {lazy : Bool}
    (P : Nat × Caps → Prop)
    (hnext : ∀ st c, P st → c ∈ next st.1 st.2 → P c) :
    ∀ fuel pending visited, (∀ st ∈ pending, P st) →
      ∀ r ∈ (starGo next lazy fuel pending visited).1, P r := by
  intro fuel
  induction fuel with
  | zero => intro pending visited _ r hr; simp [starGo] at hr
  | succ f ih =>
    intro pending visited hp r hr
    cases pending with
    | nil => simp [starGo] at hr
    | cons st rest =>
      by_cases hv : st ∈ visited
      · rw [starGo, if_pos hv] at hr
        exact ih rest visited (fun x hx => hp x (List.mem_cons_of_mem _ hx)) r hr
      · rw [starGo, if_neg hv] at hr
        simp only [List.mem_append] at hr
        have hst : P st := hp st (List.mem_cons_self _ _)
        have hchild : ∀ c ∈ (next st.1 st.2).filter fun c => st.1 < c.1, P c := by
          intro c hc
          exact hnext st c hst (List.mem_of_mem_filter hc)
        rcases hr with hr | hr
        · by_cases hl : lazy = true
          · rw [if_pos hl] at hr
            rcases List.mem_cons.mp hr with rfl | hr
            · exact hst
            · exact ih _ _ hchild r hr
          · rw [if_neg hl] at hr
            rcases List.mem_append.mp hr with hr | hr
            · exact ih _ _ hchild r hr
            · rcases List.mem_singleton.mp hr with rfl
              exact hst
        · exact ih rest _ (fun x hx => hp x (List.mem_cons_of_mem _ hx)) r hr

/-- Matching never moves backwards. -/
theorem mrun_mono {s : List Char} :
    ∀ fuel re i caps jc, jc ∈ mrun s fuel re i caps → i ≤ jc.1 := by
  intro fuel
  induction fuel with
  | zero => intro re i caps jc h; simp [mrun_zero] at h
  | succ f ih =>
    intro re i caps jc h
    cases re with
    | eps => rcases mem_mrun_eps h with rfl; exact le_refl _
    | bol => rcases mem_mrun_bol h with rfl; exact le_refl _
    | pred p => obtain ⟨c, _, _, rfl⟩ := mem_mrun_pred h; omega
    | cat a b =>
      obtain ⟨kc, hk, hj⟩ := mem_mrun_cat h
      exact le_trans (ih a i caps kc hk) (ih b kc.1 kc.2 jc hj)
    | alt a b =>
      rcases mem_mrun_alt h with hk | hk
      · exact ih a i caps jc hk
      · exact ih b i caps jc hk
    | grp g a =>
      obtain ⟨kc, hk, rfl⟩ := mem_mrun_grp h
      exact ih a i caps kc hk
    | star lz a =>
      refine starGo_inv (fun st => i ≤ st.1) ?_ f _ _ ?_ jc (mem_mrun_star h)
      · intro st c hst hc
        exact le_trans hst (ih a st.1 st.2 c hc)
      · intro st hst
        rcases List.mem_singleton.mp hst with rfl
        exact le_refl _

/-- Matching never runs past the end of the input. -/
theorem mrun_le_length {s : List Char} :
    ∀ fuel re i caps jc, jc ∈ mrun s fuel re i caps → i ≤ s.length → jc.1 ≤ s.length := by
  intro fuel
  induction fuel with
  | zero => intro re i caps jc h; simp [mrun_zero] at h
  | succ f ih =>
    intro re i caps jc h hi
    cases re with
    | eps => rcases mem_mrun_eps h with rfl; exact hi
    | bol => rcases mem_mrun_bol h with rfl; exact hi
    | pred p =>
      obtain ⟨c, hg, _, rfl⟩ := mem_mrun_pred h
      have hlt : i < s.length := by
        by_contra hge
        rw [List.getElem?_eq_none (by omega)] at hg
        exact Option.noConfusion hg
      omega
    | cat a b =>
      obtain ⟨kc, hk, hj⟩ := mem_mrun_cat h
      exact ih b kc.1 kc.2 jc hj (ih a i caps kc hk hi)
    | alt a b =>
      rcases mem_mrun_alt h with hk | hk
      · exact ih a i caps jc hk hi
      · exact ih b i caps jc hk hi
    | grp g a =>
      obtain ⟨kc, hk, rfl⟩ := mem_mrun_grp h
      exact ih a i caps kc hk hi
    | star lz a =>
      refine starGo_inv (fun st => st.1 ≤ s.length) ?_ f _ _ ?_ jc (mem_mrun_star h)
      · intro st c hst hc
        exact ih a st.1 st.2 c hc hst
      · intro st hst
        rcases List.mem_singleton.mp hst with rfl
        exact hi

/-- Syntactic absence of capture groups. -/
def grpFree : RE → Bool
  | .eps => true
  | .bol => true
  | .pred _ => true
  | .cat a b => grpFree a && grpFree b
  | .alt a b => grpFree a && grpFree b
  | .star _ a => grpFree a
  | .grp _ _ => false

/-- A capture-free subexpression leaves the capture slots untouched. -/
theorem mrun_grpFree {s : List Char} :
    ∀ fuel re, grpFree re = true → ∀ i caps jc, jc ∈ mrun s fuel re i caps → jc.2 = caps := by
  intro fuel
  induction fuel with
  | zero => intro re _ i caps jc h; simp [mrun_zero] at h
  | succ f ih =>
    intro re hre i caps jc h
    cases re with
    | eps => rcases mem_mrun_eps h with rfl; rfl
    | bol => rcases mem_mrun_bol h with rfl; rfl
    | pred p => obtain ⟨c, _, _, rfl⟩ := mem_mrun_pred h; rfl
    | cat a b =>
      simp only [grpFree, Bool.and_eq_true] at hre
      obtain ⟨kc, hk, hj⟩ := mem_mrun_cat h
      rw [ih b hre.2 kc.1 kc.2 jc hj, ih a hre.1 i caps kc hk]
    | alt a b =>
      simp only [grpFree, Bool.and_eq_true] at hre
      rcases mem_mrun_alt h with hk | hk
      · exact ih a hre.1 i caps jc hk
      · exact ih b hre.2 i caps jc hk
    | grp g a => simp [grpFree] at hre
    | star lz a =>
      simp only [grpFree] at hre
      refine starGo_inv (fun st => st.2 = caps) ?_ f _ _ ?_ jc (mem_mrun_star h)
      · intro st c hst hc
        rw [ih a hre st.1 st.2 c hc, hst]
      · intro st hst
        rcases List.mem_singleton.mp hst with rfl
        rfl
/-! ### Shape of the spans the capture groups can record -/

theorem getElem?_lt {s : List Char} {n : Nat} {c : Char} (h : s[n]? = some c) :
    n < s.length := by
  by_contra hge
  rw [List.getElem?_eq_none (by omega)] at h
  exact Option.noConfusion h

theorem mem_mrun_pred' {s fuel p i caps jc} (h : jc ∈ mrun s fuel (.pred p) i caps) :
    ∃ c, s[i]? = some c ∧ p c = true ∧ jc = (i + 1, caps) := by
  cases fuel with
  | zero => simp [mrun_zero] at h
  | succ f => exact mem_mrun_pred h

theorem mem_mrun_cat' {s fuel a b i caps jc} (h : jc ∈ mrun s fuel (.cat a b) i caps) :
    ∃ f kc, kc ∈ mrun s f a i caps ∧ jc ∈ mrun s f b kc.1 kc.2 := by
  cases fuel with
  | zero => simp [mrun_zero] at h
  | succ f =>
    obtain ⟨kc, hk, hj⟩ := mem_mrun_cat h
    exact ⟨f, kc, hk, hj⟩

theorem mem_mrun_alt' {s fuel a b i caps jc} (h : jc ∈ mrun s fuel (.alt a b) i caps) :
    ∃ f, jc ∈ mrun s f a i caps ∨ jc ∈ mrun s f b i caps := by
  cases fuel with
  | zero => simp [mrun_zero] at h
  | succ f => exact ⟨f, mem_mrun_alt h⟩

/-- The span predicate every capture group of `jsImportPattern` maintains:
a capture starts at a quote character and extends at least two characters,
ending inside the input. -/
def QSpan (s : List Char) (a b : Nat) : Prop :=
  a + 2 ≤ b ∧ b ≤ s.length ∧ (s[a]? = some '\'' ∨ s[a]? = some '"')

/-- A match of either quoted branch starts at its quote, spans at least two
characters, stays inside the input, and records no capture. -/
theorem mrun_quoteBranch_span {s : List Char} {fuel i caps jc} (q : Char) (inner : RE)
    (hfree : grpFree inner = true)
    (h : jc ∈ mrun s fuel (.cat (chrRE q) (.cat (.star false inner) (chrRE q))) i caps) :
    s[i]? = some q ∧ i + 2 ≤ jc.1 ∧ jc.1 ≤ s.length ∧ jc.2 = caps := by
  obtain ⟨f1, kc1, hq, hrest⟩ := mem_mrun_cat' h
  obtain ⟨c, hgi, hpc, rfl⟩ := mem_mrun_pred' hq
  have hc : c = q := by simpa [chrRE] using hpc
  obtain ⟨f2, km, hstar, hclose⟩ := mem_mrun_cat' hrest
  have hmono : i + 1 ≤ km.1 := mrun_mono _ _ _ _ _ hstar
  have hcaps : km.2 = caps := mrun_grpFree _ _ (by simp [grpFree, hfree]) _ _ _ hstar
  obtain ⟨c2, hgk, hpc2, rfl⟩ := mem_mrun_pred' hclose
  have hklen : km.1 < s.length := getElem?_lt hgk
  subst hc
  exact ⟨hgi, by omega, by omega, hcaps⟩

/-- A match of `stringLiteralPattern` starts at a quote, spans at least two
characters, stays inside the input, and records no capture. -/
theorem mrun_stringLiteral_span {s : List Char} {fuel i caps jc}
    (h : jc ∈ mrun s fuel stringLiteralPattern i caps) :
    QSpan s i jc.1 ∧ jc.2 = caps := by
  obtain ⟨f, hb⟩ := mem_mrun_alt' h
  rcases hb with hb | hb
  · obtain ⟨hq, h2, hlen, hcaps⟩ :=
      mrun_quoteBranch_span '\'' (.alt charactersPattern (chrRE '"')) (by rfl) hb
    exact ⟨⟨h2, hlen, Or.inl hq⟩, hcaps⟩
  · obtain ⟨hq, h2, hlen, hcaps⟩ :=
      mrun_quoteBranch_span '"' (.alt charactersPattern (chrRE '\'')) (by rfl) hb
    exact ⟨⟨h2, hlen, Or.inr hq⟩, hcaps⟩

/-- Same, for the body of the starred `jestMock` group: a single-quoted
literal, or a double-quoted literal followed by any number of commas. -/
theorem mrun_jestMockBody_span {s : List Char} {fuel i caps jc}
    (h : jc ∈ mrun s fuel jestMockLit i caps) :
    QSpan s i jc.1 ∧ jc.2 = caps := by
  obtain ⟨f, hb⟩ := mem_mrun_alt' h
  rcases hb with hb | hb
  · obtain ⟨hq, h2, hlen, hcaps⟩ :=
      mrun_quoteBranch_span '\'' (.alt charactersPattern (chrRE '"')) (by rfl) hb
    exact ⟨⟨h2, hlen, Or.inl hq⟩, hcaps⟩
  · obtain ⟨f2, kc, hlit, hcomma⟩ := mem_mrun_cat' hb
    obtain ⟨hq, h2, hlen, hcaps⟩ :=
      mrun_quoteBranch_span '"' (.alt charactersPattern (chrRE '\'')) (by rfl) hlit
    have hmono : kc.1 ≤ jc.1 := mrun_mono _ _ _ _ _ hcomma
    have hup : jc.1 ≤ s.length := mrun_le_length _ _ _ _ _ hcomma hlen
    have hcaps2 : jc.2 = kc.2 := mrun_grpFree _ _ (by rfl) _ _ _ hcomma
    exact ⟨⟨by omega, hup, Or.inr hq⟩, by rw [hcaps2, hcaps]⟩

/-- All recorded capture spans satisfy `QSpan`. -/
def CapsOK (s : List Char) (caps : Caps) : Prop :=
  ∀ g sp, caps.getD g none = some sp → QSpan s sp.1 sp.2

/-- Patterns whose capture groups can only record `QSpan` spans. -/
inductive GoodRE (s : List Char) : RE → Prop where
  | eps : GoodRE s .eps
  | bol : GoodRE s .bol
  | pred (p : Char → Bool) : GoodRE s (.pred p)
  | cat {a b : RE} : GoodRE s a → GoodRE s b → GoodRE s (.cat a b)
  | alt {a b : RE} : GoodRE s a → GoodRE s b → GoodRE s (.alt a b)
  | star {lz : Bool} {a : RE} : GoodRE s a → GoodRE s (.star lz a)
  | grp {g : Nat} {a : RE} : GoodRE s a →
      (∀ fuel i caps jc, jc ∈ mrun s fuel a i caps → QSpan s i jc.1) →
      GoodRE s (.grp g a)

theorem goodRE_of_grpFree {s : List Char} : ∀ {re : RE}, grpFree re = true → GoodRE s re := by
  intro re
  induction re with
  | eps => intro _; exact .eps
  | bol => intro _; exact .bol
  | pred p => intro _; exact .pred p
  | cat a b iha ihb =>
    intro hf
    simp only [grpFree, Bool.and_eq_true] at hf
    exact .cat (iha hf.1) (ihb hf.2)
  | alt a b iha ihb =>
    intro hf
    simp only [grpFree, Bool.and_eq_true] at hf
    exact .alt (iha hf.1) (ihb hf.2)
  | star lz a iha =>
    intro hf
    exact .star (iha hf)
  | grp g a _ => intro hf; simp [grpFree] at hf

/-- Running a `GoodRE` pattern preserves `CapsOK`. -/
theorem mrun_capsOK {s : List Char} :
    ∀ fuel re, GoodRE s re → ∀ i caps, CapsOK s caps →
      ∀ jc ∈ mrun s fuel re i caps, CapsOK s jc.2 := by
  intro fuel
  induction fuel with
  | zero => intro re _ i caps _ jc h; simp [mrun_zero] at h
  | succ f ih =>
    intro re hre i caps hcaps jc h
    cases hre with
    | eps => rcases mem_mrun_eps h with rfl; exact hcaps
    | bol => rcases mem_mrun_bol h with rfl; exact hcaps
    | pred p => obtain ⟨c, _, _, rfl⟩ := mem_mrun_pred h; exact hcaps
    | @cat a b ha hb =>
      obtain ⟨kc, hk, hj⟩ := mem_mrun_cat h
      exact ih b hb kc.1 kc.2 (ih a ha i caps hcaps kc hk) jc hj
    | @alt a b ha hb =>
      rcases mem_mrun_alt h with hk | hk
      · exact ih a ha i caps hcaps jc hk
      · exact ih b hb i caps hcaps jc hk
    | @star lz a ha =>
      refine starGo_inv (fun st => CapsOK s st.2) ?_ f _ _ ?_ jc (mem_mrun_star h)
      · intro st c hst hc
        exact ih a ha st.1 st.2 hst c hc
      · intro st hst
        rcases List.mem_singleton.mp hst with rfl
        exact hcaps
    | @grp g a ha hspan =>
      obtain ⟨kc, hk, rfl⟩ := mem_mrun_grp h
      have hkc : CapsOK s kc.2 := ih a ha i caps hcaps kc hk
      intro g' sp hsp
      by_cases hgg : g' = g
      · subst hgg
        by_cases hglen : g' < kc.2.length
        · rw [List.getD_eq_getElem?_getD, List.getElem?_set_self hglen] at hsp
          simp only [Option.getD_some] at hsp
          cases Option.some.inj hsp
          exact hspan f i caps kc hk
        · rw [List.getD_eq_getElem?_getD, List.getElem?_set, if_pos rfl] at hsp
          rw [if_neg hglen] at hsp
          simp at hsp
      · rw [List.getD_eq_getElem?_getD, List.getElem?_set_ne (fun hh => hgg hh.symm)] at hsp
        exact hkc g' sp (by rw [List.getD_eq_getElem?_getD]; exact hsp)

/-- Every capture group of `jsImportPattern` can only record `QSpan` spans. -/
theorem goodRE_jsImportPattern {s : List Char} : GoodRE s jsImportPattern := by
  have hf : ∀ {re : RE}, grpFree re = true → GoodRE s re := goodRE_of_grpFree
  have hlit : ∀ fuel i caps jc, jc ∈ mrun s fuel stringLiteralPattern i caps →
      QSpan s i jc.1 := fun _ _ _ _ h => (mrun_stringLiteral_span h).1
  have hjm : ∀ fuel i caps jc, jc ∈ mrun s fuel jestMockLit i caps →
      QSpan s i jc.1 := fun _ _ _ _ h => (mrun_jestMockBody_span h).1
  refine .alt ?_ (.alt ?_ (.alt ?_ (.alt ?_ (.alt ?_ (.alt ?_ ?_)))))
  · exact .cat .bol (.cat (hf (by rfl)) (.cat (hf (by rfl)) (.cat (hf (by rfl))
      (.cat (.grp (hf (by rfl)) hlit) (hf (by rfl))))))
  · exact .cat .bol (.cat (hf (by rfl)) (.cat (hf (by rfl)) (.cat (hf (by rfl))
      (.cat (.grp (hf (by rfl)) hlit) (hf (by rfl))))))
  · exact .cat .bol (.cat (hf (by rfl)) (.cat (hf (by rfl)) (.cat (hf (by rfl))
      (.cat (.grp (hf (by rfl)) hlit) (hf (by rfl))))))
  · exact .cat .bol (.cat (hf (by rfl)) (.cat (hf (by rfl)) (.cat (hf (by rfl))
      (.cat (hf (by rfl)) (.cat (hf (by rfl)) (.star (.grp (hf (by rfl)) hjm)))))))
  · exact .cat .bol (.cat (hf (by rfl)) (.cat (hf (by rfl)) (.cat (hf (by rfl))
      (.cat (hf (by rfl)) (.cat (hf (by rfl)) (.cat (.grp (hf (by rfl)) hlit)
        (hf (by rfl))))))))
  · exact .cat .bol (.cat (hf (by rfl)) (.cat (hf (by rfl)) (.cat (hf (by rfl))
      (.cat (hf (by rfl)) (.cat (hf (by rfl)) (.cat (.grp (hf (by rfl)) hlit)
        (hf (by rfl))))))))
  · exact .cat .bol (.cat (hf (by rfl)) (.cat (hf (by rfl)) (.cat (hf (by rfl))
      (.cat (hf (by rfl)) (.cat (hf (by rfl)) (.cat (.grp (hf (by rfl)) hlit)
        (hf (by rfl))))))))

theorem capsInit_ok {s : List Char} : CapsOK s capsInit := by
  intro g sp hsp
  simp only [capsInit, List.getD_eq_getElem?_getD, List.getElem?_replicate] at hsp
  split at hsp <;> simp at hsp

theorem findFrom_capsOK {s : List Char} :
    ∀ fuel i r, findFrom s fuel i = some r → CapsOK s r.2.2 := by
  intro fuel
  induction fuel with
  | zero => intro i r h; simp [findFrom] at h
  | succ f ih =>
    intro i r h
    rw [findFrom] at h
    cases hm : mrun s (mfuel s) jsImportPattern i capsInit with
    | nil =>
      rw [hm] at h
      by_cases hi : i < s.length
      · rw [if_pos hi] at h; exact ih _ _ h
      · rw [if_neg hi] at h; exact Option.noConfusion h
    | cons jc tl =>
      obtain ⟨j, caps⟩ := jc
      rw [hm] at h
      cases Option.some.inj h
      exact mrun_capsOK _ _ goodRE_jsImportPattern _ _ capsInit_ok (j, caps)
        (by rw [hm]; exact List.mem_cons_self _ _)

theorem findAllGo_capsOK {s : List Char} :
    ∀ fuel pos caps, caps ∈ findAllGo s fuel pos → CapsOK s caps := by
  intro fuel
  induction fuel with
  | zero => intro pos caps h; simp [findAllGo] at h
  | succ f ih =>
    intro pos caps h
    rw [findAllGo] at h
    cases hfr : findFrom s (s.length + 2) pos with
    | none => rw [hfr] at h; simp at h
    | some r =>
      obtain ⟨st, en, c⟩ := r
      rw [hfr] at h
      rcases List.mem_cons.mp h with rfl | h
      · exact findFrom_capsOK _ _ _ hfr
      · by_cases hlt : st < en
        · rw [if_pos hlt] at h; exact ih _ _ h
        · rw [if_neg hlt] at h; exact ih _ _ h

theorem capStr_shape {s : List Char} {a b : Nat} (h : QSpan s a b) :
    2 ≤ (capStr s (a, b)).length ∧
      ((capStr s (a, b)).head? = some '\'' ∨ (capStr s (a, b)).head? = some '"') := by
  obtain ⟨h2, hlen, hquote⟩ := h
  have hl : (capStr s (a, b)).length = b - a := by
    simp only [capStr, List.length_take, List.length_drop]
    omega
  refine ⟨by omega, ?_⟩
  have hda : (s.drop a).head? = s[a]? := by
    rw [List.head?_eq_getElem?, List.getElem?_drop]
    norm_num
  cases hd : s.drop a with
  | nil =>
    rw [hd] at hda
    rcases hquote with hq | hq <;> rw [← hda] at hq <;> exact absurd hq (by simp)
  | cons x xs =>
    rw [hd] at hda
    simp only [List.head?_cons] at hda
    have hba : ∃ n, b - a = n + 1 := ⟨b - a - 1, by omega⟩
    obtain ⟨n, hn⟩ := hba
    have : (capStr s (a, b)).head? = some x := by
      simp only [capStr, hd, hn, List.take_succ_cons, List.head?_cons]
    rw [this, hda]
    exact hquote

/-- Every capture handed to `unquoteImportString` by `ParseJS` is at least two
characters long and starts with a quote character. -/
theorem jsFindAllSubmatch_shape {data : List Char} {m : List (Option (List Char))}
    (hm : m ∈ jsFindAllSubmatch data) {g : Nat} {c : List Char}
    (hc : m.getD g none = some c) :
    2 ≤ c.length ∧ (c.head? = some '\'' ∨ c.head? = some '"') := by
  obtain ⟨caps, hcaps, rfl⟩ := List.mem_map.mp hm
  have hok : CapsOK data caps := findAllGo_capsOK _ _ _ hcaps
  rw [List.getD_eq_getElem?_getD, List.getElem?_map] at hc
  cases ho : caps[g]? with
  | none => rw [ho] at hc; simp at hc
  | some o =>
    rw [ho] at hc
    cases o with
    | none => simp at hc
    | some sp =>
      simp only [Option.map_some', Option.getD_some, Option.some.injEq] at hc
      have hsp : caps.getD g none = some sp := by
        rw [List.getD_eq_getElem?_getD, ho]; rfl
      have hq : QSpan data sp.1 sp.2 := hok g sp hsp
      rcases hc with rfl
      exact capStr_shape hq

/-! ### Facts about the driver -/

/-- The capture the switch of `ParseJS` acts on: the first non-`nil` group,
in the order the cases are written. -/
def recogCap (m : List (Option (List Char))) : Option (List Char) :=
  match m.getD IMPORT none with
  | some c => some c
  | none =>
  match m.getD REQUIRE none with
  | some c => some c
  | none =>
  match m.getD EXPORT none with
  | some c => some c
  | none =>
  match m.getD JEST_MOCK none with
  | some c => some c
  | none =>
  match m.getD JEST_REQUIRE_ACTUAL none with
  | some c => some c
  | none =>
  match m.getD REQUIRE_RESOLVE none with
  | some c => some c
  | none => m.getD JEST_CREATE_MOCK_FROM_MODULE none

/-- Whether a match carries a recognized capture whose literal fails to
unquote. -/
def matchFails (m : List (Option (List Char))) : Bool :=
  match recogCap m with
  | some c => !(unquoteImportString c).isOk
  | none => false

theorem stepMatch_allNone {m : List (Option (List Char))}
    (h : ∀ g, 1 ≤ g → g ≤ 7 → m.getD g none = none) : stepMatch m = .ok none := by
  have key : ∀ g, 1 ≤ g → g ≤ 7 → m[g]?.getD none = (none : Option (List Char)) := by
    intro g a b
    have hg := h g a b
    rwa [List.getD_eq_getElem?_getD] at hg
  have h1 := key 1 (by omega) (by omega)
  have h2 := key 2 (by omega) (by omega)
  have h3 := key 3 (by omega) (by omega)
  have h4 := key 4 (by omega) (by omega)
  have h5 := key 5 (by omega) (by omega)
  have h6 := key 6 (by omega) (by omega)
  have h7 := key 7 (by omega) (by omega)
  simp [stepMatch, IMPORT, REQUIRE, EXPORT, JEST_MOCK, JEST_REQUIRE_ACTUAL,
    REQUIRE_RESOLVE, JEST_CREATE_MOCK_FROM_MODULE, h1, h2, h3, h4, h5, h6, h7]

theorem recogCap_stepMatch {m : List (Option (List Char))} {c : List Char}
    (h : recogCap m = some c) : ∃ lower, stepMatch m = armOf lower c := by
  unfold recogCap at h
  unfold stepMatch
  cases h1 : m.getD IMPORT none with
  | some c1 => rw [h1] at h; cases Option.some.inj h; exact ⟨false, rfl⟩
  | none =>
  rw [h1] at h
  cases h2 : m.getD REQUIRE none with
  | some c2 => rw [h2] at h; cases Option.some.inj h; exact ⟨true, rfl⟩
  | none =>
  rw [h2] at h
  cases h3 : m.getD EXPORT none with
  | some c3 => rw [h3] at h; cases Option.some.inj h; exact ⟨true, rfl⟩
  | none =>
  rw [h3] at h
  cases h4 : m.getD JEST_MOCK none with
  | some c4 => rw [h4] at h; cases Option.some.inj h; exact ⟨true, rfl⟩
  | none =>
  rw [h4] at h
  cases h5 : m.getD JEST_REQUIRE_ACTUAL none with
  | some c5 => rw [h5] at h; cases Option.some.inj h; exact ⟨true, rfl⟩
  | none =>
  rw [h5] at h
  cases h6 : m.getD REQUIRE_RESOLVE none with
  | some c6 => rw [h6] at h; cases Option.some.inj h; exact ⟨true, rfl⟩
  | none =>
  rw [h6] at h
  cases h7 : m.getD JEST_CREATE_MOCK_FROM_MODULE none with
  | some c7 => rw [h7] at h; cases Option.some.inj h; exact ⟨true, rfl⟩
  | none => rw [h7] at h; exact Option.noConfusion h

theorem armOf_error_inv {lower : Bool} {c : List Char} {E : String}
    (h : armOf lower c = .error E) :
    ∃ e, unquoteImportString c = .error e ∧ E = jsErr (capAfterCall c) e := by
  unfold armOf at h
  cases hu : unquoteImportString c with
  | error e => rw [hu] at h; exact ⟨e, rfl, (Except.error.inj h).symm⟩
  | ok u => rw [hu] at h; exact absurd h (by simp)

theorem stepMatch_error_inv {m : List (Option (List Char))} {E : String}
    (h : stepMatch m = .error E) :
    ∃ c e, recogCap m = some c ∧ unquoteImportString c = .error e ∧
      E = jsErr (capAfterCall c) e := by
  unfold stepMatch at h
  unfold recogCap
  cases h1 : m.getD IMPORT none with
  | some c1 =>
    rw [h1] at h
    obtain ⟨e, hu, hE⟩ := armOf_error_inv h
    exact ⟨c1, e, rfl, hu, hE⟩
  | none =>
  rw [h1] at h
  cases h2 : m.getD REQUIRE none with
  | some c2 =>
    rw [h2] at h
    obtain ⟨e, hu, hE⟩ := armOf_error_inv h
    exact ⟨c2, e, rfl, hu, hE⟩
  | none =>
  rw [h2] at h
  cases h3 : m.getD EXPORT none with
  | some c3 =>
    rw [h3] at h
    obtain ⟨e, hu, hE⟩ := armOf_error_inv h
    exact ⟨c3, e, rfl, hu, hE⟩
  | none =>
  rw [h3] at h
  cases h4 : m.getD JEST_MOCK none with
  | some c4 =>
    rw [h4] at h
    obtain ⟨e, hu, hE⟩ := armOf_error_inv h
    exact ⟨c4, e, rfl, hu, hE⟩
  | none =>
  rw [h4] at h
  cases h5 : m.getD JEST_REQUIRE_ACTUAL none with
  | some c5 =>
    rw [h5] at h
    obtain ⟨e, hu, hE⟩ := armOf_error_inv h
    exact ⟨c5, e, rfl, hu, hE⟩
  | none =>
  rw [h5] at h
  cases h6 : m.getD REQUIRE_RESOLVE none with
  | some c6 =>
    rw [h6] at h
    obtain ⟨e, hu, hE⟩ := armOf_error_inv h
    exact ⟨c6, e, rfl, hu, hE⟩
  | none =>
  rw [h6] at h
  cases h7 : m.getD JEST_CREATE_MOCK_FROM_MODULE none with
  | some c7 =>
    rw [h7] at h
    obtain ⟨e, hu, hE⟩ := armOf_error_inv h
    exact ⟨c7, e, rfl, hu, hE⟩
  | none => rw [h7] at h; exact absurd h (by simp)

theorem matchFails_error {m : List (Option (List Char))} (h : matchFails m = true) :
    ∃ c e, recogCap m = some c ∧ unquoteImportString c = .error e ∧
      stepMatch m = .error (jsErr (capAfterCall c) e) := by
  unfold matchFails at h
  cases hr : recogCap m with
  | none => rw [hr] at h; simp at h
  | some c =>
    rw [hr] at h
    have h' : (!(unquoteImportString c).isOk) = true := h
    cases hu : unquoteImportString c with
    | ok u => rw [hu] at h'; simp [Except.isOk, Except.toBool] at h'
    | error e =>
      obtain ⟨lower, hsm⟩ := recogCap_stepMatch hr
      refine ⟨c, e, rfl, hu, ?_⟩
      rw [hsm]
      simp [armOf, hu]

theorem collectImports_allSkip :
    ∀ ms, (∀ m ∈ ms, stepMatch m = .ok none) → collectImports ms = .ok [] := by
  intro ms
  induction ms with
  | nil => intro _; rfl
  | cons m rest ih =>
    intro h
    have hm := h m (List.mem_cons_self _ _)
    have hrest := ih fun x hx => h x (List.mem_cons_of_mem _ hx)
    simp [collectImports, hm, hrest]

theorem collectImports_fails :
    ∀ ms, (∃ m ∈ ms, matchFails m = true) →
      ∃ m ∈ ms, ∃ c e, recogCap m = some c ∧ unquoteImportString c = .error e ∧
        collectImports ms = .error (jsErr (capAfterCall c) e) := by
  intro ms
  induction ms with
  | nil => rintro ⟨m, hm, _⟩; exact absurd hm (by simp)
  | cons m rest ih =>
    rintro ⟨m0, hm0, hf0⟩
    cases hsm : stepMatch m with
    | error E =>
      obtain ⟨c, e, hrc, hu, hE⟩ := stepMatch_error_inv hsm
      exact ⟨m, List.mem_cons_self _ _, c, e, hrc, hu, by simp [collectImports, hsm, hE]⟩
    | ok o =>
      have hm0r : m0 ∈ rest := by
        rcases List.mem_cons.mp hm0 with rfl | hr
        · obtain ⟨c, e, _, _, hsm'⟩ := matchFails_error hf0
          rw [hsm] at hsm'
          exact absurd hsm' (by simp)
        · exact hr
      obtain ⟨m', hm', c, e, hrc, hu, hce⟩ := ih ⟨m0, hm0r, hf0⟩
      refine ⟨m', List.mem_cons_of_mem _ hm', c, e, hrc, hu, ?_⟩
      cases o with
      | none => simp [collectImports, hsm, hce]
      | some v => simp [collectImports, hsm, hce, Except.map]

/-! ### The error text carries the offending literal's body -/

theorem exists_firstLast {l : List Char} (h : 2 ≤ l.length) :
    ∃ x mid y, l = x :: mid ++ [y] := by
  cases l with
  | nil => simp at h
  | cons x rest =>
    rcases List.eq_nil_or_concat rest with rfl | ⟨mid, y, rfl⟩
    · simp at h
    · exact ⟨x, mid, y, by simp⟩

theorem set_last {l : List Char} {y z : Char} :
    (l ++ [y]).set l.length z = l ++ [z] := by
  induction l with
  | nil => rfl
  | cons a l ih =>
    show a :: (l ++ [y]).set l.length z = a :: (l ++ [z])
    rw [ih]

theorem rewriteDelims_decomp {x y : Char} {mid : List Char} :
    rewriteDelims (x :: mid ++ [y]) = '"' :: mid ++ ['"'] := by
  unfold rewriteDelims
  have h0 : (x :: mid ++ [y]).set 0 '"' = '"' :: (mid ++ [y]) := rfl
  have hlen : (x :: mid ++ [y]).length - 1 = mid.length + 1 := by
    simp [List.length_append]
  rw [h0, hlen]
  show '"' :: (mid ++ [y]).set mid.length '"' = '"' :: (mid ++ ['"'])
  rw [set_last]

theorem inner_infix_capAfterCall {c : List Char} (h2 : 2 ≤ c.length) :
    (c.drop 1).dropLast <:+: capAfterCall c := by
  have hplain : (c.drop 1).dropLast <:+: c :=
    (List.dropLast_prefix _).isInfix.trans (List.drop_suffix _ _).isInfix
  unfold capAfterCall
  by_cases hsp : (splitOnDQ (c.drop 1).dropLast).length ≠ 1
  · rw [if_pos hsp]; exact hplain
  · rw [if_neg hsp]
    by_cases hq : c.head? = some '\''
    · rw [if_pos hq]
      obtain ⟨x, mid, y, rfl⟩ := exists_firstLast h2
      rw [rewriteDelims_decomp]
      have hmid : ((x :: mid ++ [y]).drop 1).dropLast = mid := by
        simp
      rw [hmid]
      exact ⟨['"'], ['"'], rfl⟩
    · rw [if_neg hq]; exact hplain

theorem jsErr_data (raw : List Char) (inner : String) :
    (jsErr raw inner).data =
      "unquoting string literal ".data ++ raw ++ (" from js, ".data ++ inner.data) := by
  simp [jsErr, String.data_append]

theorem infix_jsErr {l raw : List Char} {inner : String} (h : l <:+: raw) :
    l <:+: (jsErr raw inner).data := by
  refine h.trans ?_
  rw [jsErr_data]
  exact ⟨"unquoting string literal ".data, " from js, ".data ++ inner.data, by simp⟩

/-! ### The unquoter against the spec's step-by-step description (C6) -/

/-- The normalization pass as §4.2 of the spec words it, for comparison with
`normalizeQuoted`: strip the delimiters; split the body on `"`; with exactly
one piece keep the buffer unmodified, otherwise re-escape every piece but the
last, rejoin with `"` and wrap in `"`; finally, if the ORIGINAL outer delimiter
was a single quote, rewrite the first and last byte of the (possibly
rewritten) buffer to double quotes.  (The source instead tests the first byte
of the current buffer.) -/
def specNormalizeQuoted (quoted : List Char) : List Char :=
  let pieces := splitOnDQ (quoted.drop 1).dropLast
  let buf := if pieces.length = 1 then quoted
             else '"' :: (joinDQ (reEscapePieces pieces) ++ ['"'])
  if quoted.head? = some '\'' then rewriteDelims buf else buf

/-- The unquoter as the spec describes it: the spec's normalization followed by
the same double-quoted-literal decoder. -/
def specUnquoteImportString (quoted : List Char) : Except String (List Char) :=
  match goUnquote (specNormalizeQuoted quoted) with
  | some r => .ok r
  | none =>
    .error ("unquoting string literal " ++ String.mk (specNormalizeQuoted quoted) ++
      " from js: invalid syntax")

theorem normalizeQuoted_eq_spec (q : List Char) :
    normalizeQuoted q = specNormalizeQuoted q := by
  unfold normalizeQuoted specNormalizeQuoted
  simp only [List.drop_one]
  by_cases hsp : (splitOnDQ q.tail.dropLast).length = 1
  · simp [hsp]
  · have hB : rewriteDelims
        ('"' :: (joinDQ (reEscapePieces (splitOnDQ q.tail.dropLast)) ++ ['"'])) =
        '"' :: (joinDQ (reEscapePieces (splitOnDQ q.tail.dropLast)) ++ ['"']) :=
      rewriteDelims_decomp
    by_cases hq : q.head? = some '\'' <;> simp [hsp, hq, hB]

theorem unquoteImportString_eq_spec (q : List Char) :
    unquoteImportString q = specUnquoteImportString q := by
  unfold unquoteImportString specUnquoteImportString
  rw [normalizeQuoted_eq_spec]

/-! ### Quote-style equivalence on plain module paths (C7) -/

theorem splitOnDQ_no_quote {p : List Char} (h : ∀ c ∈ p, c ≠ '"') :
    splitOnDQ p = [p] := by
  induction p with
  | nil => rfl
  | cons c rest ih =>
    have hc : c ≠ '"' := h c (List.mem_cons_self _ _)
    simp [splitOnDQ, hc, ih fun x hx => h x (List.mem_cons_of_mem _ hx)]

theorem unquoteLoop_plain {p : List Char} :
    ∀ (acc : List Char) (fuel : Nat), p.length < fuel →
      (∀ c ∈ p, c ≠ '"' ∧ c ≠ '\\' ∧ c ≠ '\n') →
      unquoteLoop '"' fuel acc (p ++ ['"']) = some (acc.reverse ++ p) := by
  induction p with
  | nil =>
    intro acc fuel hf _
    cases fuel with
    | zero => omega
    | succ f => simp [unquoteLoop]
  | cons c rest ih =>
    intro acc fuel hf hc
    cases fuel with
    | zero => simp at hf
    | succ f =>
      obtain ⟨hq, hbs, hnl⟩ := hc c (List.mem_cons_self _ _)
      have hstep : unquoteCharStep '"' (c :: (rest ++ ['"'])) = some (c, rest ++ ['"']) := by
        simp only [unquoteCharStep]
        rw [if_neg hq, if_pos hbs]
      rw [List.cons_append]
      simp only [unquoteLoop]
      rw [if_neg hq, if_neg hnl, hstep]
      show unquoteLoop '"' f (c :: acc) (rest ++ ['"']) = some (acc.reverse ++ c :: rest)
      rw [ih (c :: acc) f (by simpa using hf) fun x hx => hc x (List.mem_cons_of_mem _ hx)]
      simp

theorem goUnquote_plain {p : List Char}
    (h : ∀ c ∈ p, c ≠ '"' ∧ c ≠ '\\' ∧ c ≠ '\n') :
    goUnquote ('"' :: p ++ ['"']) = some p := by
  have hne : (p ++ ['"']).isEmpty = false := by simp
  simp only [List.cons_append, goUnquote, hne, Bool.false_eq_true, if_false]
  rw [if_pos (by simp)]
  have := unquoteLoop_plain [] ((p ++ ['"']).length + 1)
    (by simp; omega) h
  rw [this]
  simp

theorem normalizeQuoted_plain_sq {p : List Char} (h : ∀ c ∈ p, c ≠ '"') :
    normalizeQuoted ('\'' :: p ++ ['\'']) = '"' :: p ++ ['"'] := by
  unfold normalizeQuoted
  have hinner : (('\'' :: p ++ ['\'']).drop 1).dropLast = p := by simp
  rw [hinner, splitOnDQ_no_quote h]
  simp only [List.length_singleton, ne_eq, not_true_eq_false, if_false]
  rw [if_pos (by simp)]
  exact rewriteDelims_decomp

theorem normalizeQuoted_plain_dq {p : List Char} (h : ∀ c ∈ p, c ≠ '"') :
    normalizeQuoted ('"' :: p ++ ['"']) = '"' :: p ++ ['"'] := by
  unfold normalizeQuoted
  have hinner : (('"' :: p ++ ['"']).drop 1).dropLast = p := by simp
  rw [hinner, splitOnDQ_no_quote h]
  simp only [List.length_singleton, ne_eq, not_true_eq_false, if_false]
  rw [if_neg (by simp)]

theorem unquoteImportString_plain_sq {p : List Char}
    (h : ∀ c ∈ p, c ≠ '\'' ∧ c ≠ '"' ∧ c ≠ '\\' ∧ c ≠ '\n') :
    unquoteImportString ('\'' :: p ++ ['\'']) = .ok p := by
  unfold unquoteImportString
  rw [normalizeQuoted_plain_sq fun c hc => (h c hc).2.1,
    goUnquote_plain fun c hc => ⟨(h c hc).2.1, (h c hc).2.2.1, (h c hc).2.2.2⟩]

theorem unquoteImportString_plain_dq {p : List Char}
    (h : ∀ c ∈ p, c ≠ '\'' ∧ c ≠ '"' ∧ c ≠ '\\' ∧ c ≠ '\n') :
    unquoteImportString ('"' :: p ++ ['"']) = .ok p := by
  unfold unquoteImportString
  rw [normalizeQuoted_plain_dq fun c hc => (h c hc).2.1,
    goUnquote_plain fun c hc => ⟨(h c hc).2.1, (h c hc).2.2.1, (h c hc).2.2.2⟩]

/-! ### Matches with no recognized capture -/

theorem recogCap_none_stepMatch {m : List (Option (List Char))}
    (h : recogCap m = none) : stepMatch m = .ok none := by
  unfold recogCap at h
  unfold stepMatch
  cases h1 : m.getD IMPORT none with
  | some c => rw [h1] at h; exact Option.noConfusion h
  | none =>
  rw [h1] at h
  cases h2 : m.getD REQUIRE none with
  | some c => rw [h2] at h; exact Option.noConfusion h
  | none =>
  rw [h2] at h
  cases h3 : m.getD EXPORT none with
  | some c => rw [h3] at h; exact Option.noConfusion h
  | none =>
  rw [h3] at h
  cases h4 : m.getD JEST_MOCK none with
  | some c => rw [h4] at h; exact Option.noConfusion h
  | none =>
  rw [h4] at h
  cases h5 : m.getD JEST_REQUIRE_ACTUAL none with
  | some c => rw [h5] at h; exact Option.noConfusion h
  | none =>
  rw [h5] at h
  cases h6 : m.getD REQUIRE_RESOLVE none with
  | some c => rw [h6] at h; exact Option.noConfusion h
  | none =>
  rw [h6] at h
  cases h7 : m.getD JEST_CREATE_MOCK_FROM_MODULE none with
  | some c => rw [h7] at h; exact Option.noConfusion h
  | none => rfl

theorem recogCap_getD {m : List (Option (List Char))} {c : List Char}
    (h : recogCap m = some c) : ∃ g, m.getD g none = some c := by
  unfold recogCap at h
  cases h1 : m.getD IMPORT none with
  | some c1 => rw [h1] at h; cases Option.some.inj h; exact ⟨IMPORT, h1⟩
  | none =>
  rw [h1] at h
  cases h2 : m.getD REQUIRE none with
  | some c2 => rw [h2] at h; cases Option.some.inj h; exact ⟨REQUIRE, h2⟩
  | none =>
  rw [h2] at h
  cases h3 : m.getD EXPORT none with
  | some c3 => rw [h3] at h; cases Option.some.inj h; exact ⟨EXPORT, h3⟩
  | none =>
  rw [h3] at h
  cases h4 : m.getD JEST_MOCK none with
  | some c4 => rw [h4] at h; cases Option.some.inj h; exact ⟨JEST_MOCK, h4⟩
  | none =>
  rw [h4] at h
  cases h5 : m.getD JEST_REQUIRE_ACTUAL none with
  | some c5 => rw [h5] at h; cases Option.some.inj h; exact ⟨JEST_REQUIRE_ACTUAL, h5⟩
  | none =>
  rw [h5] at h
  cases h6 : m.getD REQUIRE_RESOLVE none with
  | some c6 => rw [h6] at h; cases Option.some.inj h; exact ⟨REQUIRE_RESOLVE, h6⟩
  | none =>
  rw [h6] at h
  exact ⟨JEST_CREATE_MOCK_FROM_MODULE, h⟩

theorem recogCap_none_iff {m : List (Option (List Char))} :
    recogCap m = none ↔ ∀ g, 1 ≤ g → g ≤ 7 → m.getD g none = none := by
  constructor
  · intro h g h1 h7
    unfold recogCap at h
    cases hh1 : m.getD IMPORT none with
    | some c => rw [hh1] at h; exact Option.noConfusion h
    | none =>
    rw [hh1] at h
    cases hh2 : m.getD REQUIRE none with
    | some c => rw [hh2] at h; exact Option.noConfusion h
    | none =>
    rw [hh2] at h
    cases hh3 : m.getD EXPORT none with
    | some c => rw [hh3] at h; exact Option.noConfusion h
    | none =>
    rw [hh3] at h
    cases hh4 : m.getD JEST_MOCK none with
    | some c => rw [hh4] at h; exact Option.noConfusion h
    | none =>
    rw [hh4] at h
    cases hh5 : m.getD JEST_REQUIRE_ACTUAL none with
    | some c => rw [hh5] at h; exact Option.noConfusion h
    | none =>
    rw [hh5] at h
    cases hh6 : m.getD REQUIRE_RESOLVE none with
    | some c => rw [hh6] at h; exact Option.noConfusion h
    | none =>
    rw [hh6] at h
    interval_cases g
    · exact hh1
    · exact hh2
    · exact hh3
    · exact hh4
    · exact hh5
    · exact hh6
    · exact h
  · intro h
    unfold recogCap
    simp only [IMPORT, REQUIRE, EXPORT, JEST_MOCK, JEST_REQUIRE_ACTUAL, REQUIRE_RESOLVE,
      JEST_CREATE_MOCK_FROM_MODULE]
    rw [h 1 (by omega) (by omega), h 2 (by omega) (by omega), h 3 (by omega) (by omega),
      h 4 (by omega) (by omega), h 5 (by omega) (by omega), h 6 (by omega) (by omega),
      h 7 (by omega) (by omega)]

/-! ### The claims -/

/-- C1 (counterexample): a static export of "A/B" is lower-cased by `ParseJS` —
it yields ["a/b"], not ["A/B"] — so the claim that StaticExport keeps the
unquoted value's original case is false on the code. -/
theorem parse_export_case_cex :
    ParseJS "export \"A/B\"" = .ok ["a/b"] ∧ ParseJS "export \"A/B\"" ≠ .ok ["A/B"] :=
  ⟨by decide, by decide⟩

/-- C1 (amended): only the StaticImport capture keeps the unquoted value's
original case; StaticExport and the other five forms (Require, JestMock,
JestRequireActual, RequireResolve, JestCreateMockFromModule) lower-case the
value before storing.  On the minimal examples: `import "A/B"` keeps "A/B",
and each of the other six forms yields "a/b". -/
theorem parse_case_folding :
    (∀ (m : List (Option (List Char))) (c u : List Char),
      m.getD IMPORT none = some c → unquoteImportString c = .ok u →
      stepMatch m = .ok (some (String.mk u))) ∧
    (∀ (m : List (Option (List Char))) (c u : List Char),
      m.getD IMPORT none = none → m.getD REQUIRE none = some c →
      unquoteImportString c = .ok u →
      stepMatch m = .ok (some (String.mk (toLowerModel u)))) ∧
    (∀ (m : List (Option (List Char))) (c u : List Char),
      m.getD IMPORT none = none → m.getD REQUIRE none = none →
      m.getD EXPORT none = some c → unquoteImportString c = .ok u →
      stepMatch m = .ok (some (String.mk (toLowerModel u)))) ∧
    (∀ (m : List (Option (List Char))) (c u : List Char),
      m.getD IMPORT none = none → m.getD REQUIRE none = none →
      m.getD EXPORT none = none → m.getD JEST_MOCK none = some c →
      unquoteImportString c = .ok u →
      stepMatch m = .ok (some (String.mk (toLowerModel u)))) ∧
    (∀ (m : List (Option (List Char))) (c u : List Char),
      m.getD IMPORT none = none → m.getD REQUIRE none = none →
      m.getD EXPORT none = none → m.getD JEST_MOCK none = none →
      m.getD JEST_REQUIRE_ACTUAL none = some c → unquoteImportString c = .ok u →
      stepMatch m = .ok (some (String.mk (toLowerModel u)))) ∧
    (∀ (m : List (Option (List Char))) (c u : List Char),
      m.getD IMPORT none = none → m.getD REQUIRE none = none →
      m.getD EXPORT none = none → m.getD JEST_MOCK none = none →
      m.getD JEST_REQUIRE_ACTUAL none = none → m.getD REQUIRE_RESOLVE none = some c →
      unquoteImportString c = .ok u →
      stepMatch m = .ok (some (String.mk (toLowerModel u)))) ∧
    (∀ (m : List (Option (List Char))) (c u : List Char),
      m.getD IMPORT none = none → m.getD REQUIRE none = none →
      m.getD EXPORT none = none → m.getD JEST_MOCK none = none →
      m.getD JEST_REQUIRE_ACTUAL none = none → m.getD REQUIRE_RESOLVE none = none →
      m.getD JEST_CREATE_MOCK_FROM_MODULE none = some c → unquoteImportString c = .ok u →
      stepMatch m = .ok (some (String.mk (toLowerModel u)))) ∧
    ParseJS "import \"A/B\"" = .ok ["A/B"] ∧
    ParseJS "export \"A/B\"" = .ok ["a/b"] ∧
    ParseJS "require(\"A/B\")" = .ok ["a/b"] ∧
    ParseJS "jest.mock(\"a/b\")" = .ok ["a/b"] ∧
    ParseJS "jest.requireActual(\"a/b\")" = .ok ["a/b"] ∧
    ParseJS "require.resolve(\"a/b\")" = .ok ["a/b"] ∧
    ParseJS "jest.createMockFromModule(\"a/b\")" = .ok ["a/b"] := by
  refine ⟨?_, ?_, ?_, ?_, ?_, ?_, ?_,
    by decide, by decide, by decide, by decide, by decide, by decide, by decide⟩
  · intro m c u h1 hu
    rw [List.getD_eq_getElem?_getD] at h1
    simp only [IMPORT, REQUIRE, EXPORT, JEST_MOCK, JEST_REQUIRE_ACTUAL, REQUIRE_RESOLVE, JEST_CREATE_MOCK_FROM_MODULE] at h1
    simp [stepMatch, IMPORT, armOf, h1, hu]
  · intro m c u h1 h2 hu
    rw [List.getD_eq_getElem?_getD] at h1 h2
    simp only [IMPORT, REQUIRE, EXPORT, JEST_MOCK, JEST_REQUIRE_ACTUAL, REQUIRE_RESOLVE, JEST_CREATE_MOCK_FROM_MODULE] at h1 h2
    simp [stepMatch, IMPORT, REQUIRE, armOf, h1, h2, hu]
  · intro m c u h1 h2 h3 hu
    rw [List.getD_eq_getElem?_getD] at h1 h2 h3
    simp only [IMPORT, REQUIRE, EXPORT, JEST_MOCK, JEST_REQUIRE_ACTUAL, REQUIRE_RESOLVE, JEST_CREATE_MOCK_FROM_MODULE] at h1 h2 h3
    simp [stepMatch, IMPORT, REQUIRE, EXPORT, armOf, h1, h2, h3, hu]
  · intro m c u h1 h2 h3 h4 hu
    rw [List.getD_eq_getElem?_getD] at h1 h2 h3 h4
    simp only [IMPORT, REQUIRE, EXPORT, JEST_MOCK, JEST_REQUIRE_ACTUAL, REQUIRE_RESOLVE, JEST_CREATE_MOCK_FROM_MODULE] at h1 h2 h3 h4
    simp [stepMatch, IMPORT, REQUIRE, EXPORT, JEST_MOCK, armOf, h1, h2, h3, h4, hu]
  · intro m c u h1 h2 h3 h4 h5 hu
    rw [List.getD_eq_getElem?_getD] at h1 h2 h3 h4 h5
    simp only [IMPORT, REQUIRE, EXPORT, JEST_MOCK, JEST_REQUIRE_ACTUAL, REQUIRE_RESOLVE, JEST_CREATE_MOCK_FROM_MODULE] at h1 h2 h3 h4 h5
    simp [stepMatch, IMPORT, REQUIRE, EXPORT, JEST_MOCK, JEST_REQUIRE_ACTUAL, armOf,
      h1, h2, h3, h4, h5, hu]
  · intro m c u h1 h2 h3 h4 h5 h6 hu
    rw [List.getD_eq_getElem?_getD] at h1 h2 h3 h4 h5 h6
    simp only [IMPORT, REQUIRE, EXPORT, JEST_MOCK, JEST_REQUIRE_ACTUAL, REQUIRE_RESOLVE, JEST_CREATE_MOCK_FROM_MODULE] at h1 h2 h3 h4 h5 h6
    simp [stepMatch, IMPORT, REQUIRE, EXPORT, JEST_MOCK, JEST_REQUIRE_ACTUAL,
      REQUIRE_RESOLVE, armOf, h1, h2, h3, h4, h5, h6, hu]
  · intro m c u h1 h2 h3 h4 h5 h6 h7 hu
    rw [List.getD_eq_getElem?_getD] at h1 h2 h3 h4 h5 h6 h7
    simp only [IMPORT, REQUIRE, EXPORT, JEST_MOCK, JEST_REQUIRE_ACTUAL, REQUIRE_RESOLVE, JEST_CREATE_MOCK_FROM_MODULE] at h1 h2 h3 h4 h5 h6 h7
    simp [stepMatch, IMPORT, REQUIRE, EXPORT, JEST_MOCK, JEST_REQUIRE_ACTUAL,
      REQUIRE_RESOLVE, JEST_CREATE_MOCK_FROM_MODULE, armOf, h1, h2, h3, h4, h5, h6, h7, hu]

/-- C1 (witness): an IMPORT capture "X" is stored with its case intact. -/
theorem parse_case_folding_witness :
    stepMatch [none, some ['"', 'X', '"'], none, none, none, none, none, none] =
      .ok (some (String.mk ['X'])) :=
  parse_case_folding.1 _ ['"', 'X', '"'] ['X'] (by decide) (by decide)

/-- C2: a recognized capture whose literal fails to unquote aborts the whole
extraction: `ParseJS` returns an error built around one failing capture —
no partial list of paths — and the error text contains that capture's body
(the capture's delimiters may have been rewritten to `"` in place before the
failure). -/
theorem parse_fail_fast (data : String)
    (h : ∃ m ∈ jsFindAllSubmatch data.data, matchFails m = true) :
    ∃ m ∈ jsFindAllSubmatch data.data, ∃ c e, recogCap m = some c ∧
      unquoteImportString c = .error e ∧
      ParseJS data = .error (jsErr (capAfterCall c) e) ∧
      (c.drop 1).dropLast <:+: (jsErr (capAfterCall c) e).data := by
  obtain ⟨m, hm, c, e, hrc, hu, hce⟩ := collectImports_fails _ h
  refine ⟨m, hm, c, e, hrc, hu, ?_, ?_⟩
  · unfold ParseJS
    rw [hce]
    rfl
  · obtain ⟨g, hg⟩ := recogCap_getD hrc
    exact infix_jsErr (inner_infix_capAfterCall (jsFindAllSubmatch_shape hm hg).1)

/-- C2 (witness): `require("a\qb")` holds a literal with a bad escape. -/
theorem parse_fail_fast_witness :
    ∃ m ∈ jsFindAllSubmatch "require(\"a\\qb\")".data, ∃ c e, recogCap m = some c ∧
      unquoteImportString c = .error e ∧
      ParseJS "require(\"a\\qb\")" = .error (jsErr (capAfterCall c) e) ∧
      (c.drop 1).dropLast <:+: (jsErr (capAfterCall c) e).data :=
  parse_fail_fast "require(\"a\\qb\")" (by decide)

/-- C3: successful extraction results are sorted ascending by byte-wise
comparison, duplicates kept: `require("z")` before `require("a")` yields
["a", "z"], and a path required twice appears twice. -/
theorem parse_sorted :
    (∀ (data : String) (l : List String), ParseJS data = .ok l →
      List.Sorted (fun a b => strLe a b = true) l) ∧
    ParseJS "require(\"z\")\nrequire(\"a\")" = .ok ["a", "z"] ∧
    ParseJS "require(\"a\")\nrequire(\"a\")" = .ok ["a", "a"] := by
  refine ⟨?_, by decide, by decide⟩
  intro data l h
  unfold ParseJS at h
  cases hc : collectImports (jsFindAllSubmatch data.data) with
  | error e => rw [hc] at h; exact absurd h (by simp [Except.map])
  | ok l0 =>
    rw [hc] at h
    simp only [Except.map] at h
    rw [← Except.ok.inj h]
    exact List.sorted_insertionSort _ _

/-- C3 (witness). -/
theorem parse_sorted_witness :
    List.Sorted (fun a b => strLe a b = true) ["a", "z"] :=
  parse_sorted.1 "require(\"z\")\nrequire(\"a\")" ["a", "z"] (by decide)

/-- C4: `jest.mock('x', factoryFn)` captures exactly the literal `'x'` —
the comma matcher in the group attaches to the double-quoted branch only, so
neither the comma nor the factory argument reaches the emitted path — and
extraction returns exactly ["x"]. -/
theorem parse_jest_mock_second_arg :
    jsFindAllSubmatch "jest.mock('x', factoryFn)".data =
      [[none, none, none, none, some ['\'', 'x', '\''], none, none, none]] ∧
    ParseJS "jest.mock('x', factoryFn)" = .ok ["x"] :=
  ⟨by decide, by decide⟩

/-- C5 (counterexample): `require('it\'s')` does NOT extract successfully:
after the delimiters are rewritten to double quotes, the decoder rejects the
escape `\'` inside a double-quoted literal. -/
theorem parse_escaped_single_quote_cex :
    (ParseJS "require('it\\'s')").isOk = false := by decide

/-- C5 (amended): embedded opposite quote characters survive as value
characters when the literal is double-quoted with escaped double quotes
(`import "she said \"hi\""`) or single-quoted with an unescaped double quote
(`require('it"s')`); but a single-quoted literal with an escaped single quote
(`require('it\'s')`) makes the whole extraction fail. -/
theorem parse_embedded_quote :
    ParseJS "import \"she said \\\"hi\\\"\"" = .ok ["she said \"hi\""] ∧
    ParseJS "require('it\"s')" = .ok ["it\"s"] ∧
    ParseJS "require('it\\'s')" = .error
      "unquoting string literal \"it\\'s\" from js, unquoting string literal \"it\\'s\" from js: invalid syntax" :=
  ⟨by decide, by decide, by decide⟩

/-- C6: the unquoter follows the spec's steps exactly — strip the delimiters,
split on `"`, re-escape and rewrap when more than one piece, leave the body
unmodified when exactly one, then rewrite `'` delimiters to `"` and decode. -/
theorem unquote_follows_spec_steps (q : List Char) :
    normalizeQuoted q = specNormalizeQuoted q ∧
    unquoteImportString q = specUnquoteImportString q :=
  ⟨normalizeQuoted_eq_spec q, unquoteImportString_eq_spec q⟩

/-- C6 (witness). -/
theorem unquote_follows_spec_steps_witness :
    normalizeQuoted ['\'', 'a', '\''] = specNormalizeQuoted ['\'', 'a', '\''] ∧
    unquoteImportString ['\'', 'a', '\''] = specUnquoteImportString ['\'', 'a', '\''] :=
  unquote_follows_spec_steps ['\'', 'a', '\'']

/-- C7: for a module path with no quote, backslash or newline characters,
single- and double-quoted literals unquote to the same value, and
`require('x')` extracts identically to `require("x")`. -/
theorem unquote_quote_styles :
    (∀ p : List Char, (∀ c ∈ p, c ≠ '\'' ∧ c ≠ '"' ∧ c ≠ '\\' ∧ c ≠ '\n') →
      unquoteImportString ('\'' :: p ++ ['\'']) = .ok p ∧
      unquoteImportString ('"' :: p ++ ['"']) = .ok p) ∧
    ParseJS "require('x')" = ParseJS "require(\"x\")" ∧
    ParseJS "require('x')" = .ok ["x"] :=
  ⟨fun _ hp => ⟨unquoteImportString_plain_sq hp, unquoteImportString_plain_dq hp⟩,
    by decide, by decide⟩

/-- C7 (witness). -/
theorem unquote_quote_styles_witness :
    unquoteImportString ['\'', 'a', '/', 'b', '\''] = .ok ['a', '/', 'b'] ∧
    unquoteImportString ['"', 'a', '/', 'b', '"'] = .ok ['a', '/', 'b'] :=
  unquote_quote_styles.1 ['a', '/', 'b'] (by decide)

/-- C8: when no match carries a recognized capture — equivalently, every match
has all seven groups empty — extraction succeeds with the empty list; in
particular on a comment line and on ordinary code. -/
theorem parse_no_match_empty :
    (∀ data : String, (∀ m ∈ jsFindAllSubmatch data.data, recogCap m = none) →
      ParseJS data = .ok []) ∧
    (∀ m : List (Option (List Char)),
      recogCap m = none ↔ ∀ g, 1 ≤ g → g ≤ 7 → m.getD g none = none) ∧
    ParseJS "// import \"x\"\nfoo()" = .ok [] ∧
    ParseJS "const x = 5" = .ok [] := by
  refine ⟨?_, fun m => recogCap_none_iff, by decide, by decide⟩
  intro data h
  unfold ParseJS
  rw [collectImports_allSkip _ fun m hm => recogCap_none_stepMatch (h m hm)]
  rfl

/-- C8 (witness). -/
theorem parse_no_match_empty_witness : ParseJS "foo()" = .ok [] :=
  parse_no_match_empty.1 "foo()" (by decide)

/-- C9: every capture the compiled pattern can hand to the unquoter is at
least two characters long and starts with a quote character, so the accesses
`quoted[0]`, `quoted[len(quoted)-1]` and `quoted[1:len(quoted)-1]` are in
bounds. -/
theorem parse_capture_shape (data : String) :
    ∀ m ∈ jsFindAllSubmatch data.data, ∀ (g : Nat) (c : List Char),
      m.getD g none = some c →
      2 ≤ c.length ∧ (c.head? = some '\'' ∨ c.head? = some '"') :=
  fun _ hm _ _ hc => jsFindAllSubmatch_shape hm hc

/-- C9 (witness). -/
theorem parse_capture_shape_witness :
    2 ≤ (['\'', 'x', '\''] : List Char).length ∧
      ((['\'', 'x', '\''] : List Char).head? = some '\'' ∨
        (['\'', 'x', '\''] : List Char).head? = some '"') :=
  parse_capture_shape "require('x')"
    [none, none, some ['\'', 'x', '\''], none, none, none, none, none]
    (by decide) 2 ['\'', 'x', '\''] (by decide)

/-- C10: a pattern match in which no capture group captured anything — as
happens for `jest.mock(foo)` with a non-literal argument — contributes nothing
and can never make the extraction fail. -/
theorem parse_captureless_match :
    (∀ m : List (Option (List Char)), recogCap m = none → stepMatch m = .ok none) ∧
    jsFindAllSubmatch "jest.mock(foo)".data =
      [[none, none, none, none, none, none, none, none]] ∧
    ParseJS "jest.mock(foo)" = .ok [] :=
  ⟨fun _ hm => recogCap_none_stepMatch hm, by decide, by decide⟩

/-- C10 (witness). -/
theorem parse_captureless_match_witness :
    stepMatch [none, none, none, none, none, none, none, none] = .ok none :=
  parse_captureless_match.1 [none, none, none, none, none, none, none, none] (by decide)
